import Mathlib

/-!
Shallow embedding of the 1BRC pipeline in src/main.rs (hashbrown HashMap +
memmap + rayon) and verification of the frozen claims about it.

Modelling conventions:
* Every numeric field of the source is `i8`; release-mode Rust wraps on
  overflow, which we model over `Int` with an explicit wrap into
  `[-128, 127]` (`wrap8`).
* The byte slices of the source are modelled as `List Char`; every byte the
  program ever inspects individually (';', '-', '.', ASCII digits, '\n') is
  a one-byte UTF-8 scalar, so char-level scanning coincides with the
  source's byte-level scanning on valid UTF-8 input.
* The hashbrown `HashMap` is modelled as an association list with unique
  keys; map equality of the source is lookup extensionality (`TableEquiv`).
* The `f32` arithmetic of the formatting phase (`x as f32 / 10.0`,
  `total as f32 / (count as f32 * 10.0)` printed with `{:.1}`) is modelled
  over `ℚ` with round-half-to-even at one decimal, plus the printed forms
  of the nonfinite quotients produced by a zero divisor.  Dividing an i8
  value by `10.0f32` and printing one decimal is exact for the whole i8
  range, so the `ℚ` detour agrees with the source on every value a claim
  below evaluates.
-/

set_option maxRecDepth 4000

namespace OneBRC

/-- Wrap-around of a mathematical integer into the signed 8-bit range,
modelling Rust release-mode `i8` arithmetic (two's complement, mod 2^8). -/
def wrap8 (x : Int) : Int := (x + 128) % 256 - 128

/-- `StationData` of the source: four `i8` fields. -/
structure StationData where
  min_temp : Int
  max_temp : Int
  total_temp : Int
  count : Int
deriving DecidableEq

/-- `StationData::new`: sentinel `min = i8::MAX`, `max = i8::MIN`, zero sum
and count. -/
def StationData.new : StationData := ⟨127, -128, 0, 0⟩

/-- `StationData::update`: fold one reading into the stats (`+=` on `i8`
wraps). -/
def StationData.update (s : StationData) (temp : Int) : StationData :=
  ⟨min s.min_temp temp, max s.max_temp temp,
   wrap8 (s.total_temp + temp), wrap8 (s.count + 1)⟩

/-- `StationData::aggregate`: per-key merge of two partial stats. -/
def StationData.aggregate (s other : StationData) : StationData :=
  ⟨min s.min_temp other.min_temp, max s.max_temp other.max_temp,
   wrap8 (s.total_temp + other.total_temp), wrap8 (s.count + other.count)⟩

/-- `u8::is_ascii_digit` on the underlying byte. -/
def isAsciiDigit (c : Char) : Bool := 48 ≤ c.toNat && c.toNat ≤ 57

/-- The loop state of `parse_temperature`. -/
structure ParseState where
  temp : Int
  negative : Bool
  decimal_found : Bool
deriving DecidableEq

/-- One iteration of the byte loop of `parse_temperature`: a `-` sets the
sign flag, a `.` sets `decimal_found`, a digit shifts the `i8` accumulator
(`temp * 10` then `+ (byte - b'0')`, both wrapping), anything else is
skipped. -/
def parseStep (st : ParseState) (c : Char) : ParseState :=
  if c = '-' then { st with negative := true }
  else if c = '.' then { st with decimal_found := true }
  else if isAsciiDigit c then
    { st with
      temp := wrap8 (wrap8 (st.temp * 10) + ((c.toNat : Int) - 48)),
      decimal_found := if st.decimal_found then false else st.decimal_found }
  else st

/-- `parse_temperature` of the source: fold the byte loop, then negate
(wrapping `i8` negation) when the sign flag was set. -/
def parse_temperature (bytes : List Char) : Int :=
  let st := bytes.foldl parseStep ⟨0, false, false⟩
  if st.negative then wrap8 (-st.temp) else st.temp

/-- `split_once` of the source: the part before the first delimiter and the
part after it; when the delimiter is absent, the whole input and an empty
suffix. -/
def split_once (delimiter : Char) : List Char → List Char × List Char
  | [] => ([], [])
  | c :: rest =>
    if c = delimiter then ([], rest)
    else
      let p := split_once delimiter rest
      (c :: p.1, p.2)

/-- The aggregation table: hashbrown `HashMap<String, StationData>`
modelled as an association list with unique keys. -/
abbrev Table := List (String × StationData)

/-- Map lookup. -/
def tlookup (k : String) : Table → Option StationData
  | [] => none
  | (k', d) :: rest => if k' = k then some d else tlookup k rest

/-- hashbrown `entry(k).and_modify(f).or_insert(ini)`. -/
def entryUpsert (k : String) (f : StationData → StationData)
    (ini : StationData) : Table → Table
  | [] => [(k, ini)]
  | (k', d) :: rest =>
    if k' = k then (k', f d) :: rest
    else (k', d) :: entryUpsert k f ini rest

/-- `process_line` of the source: split at the first ';', parse the value
token, and upsert the key's entry (`or_insert_with` builds
`StationData::new()` updated with this reading). -/
def process_line (acc : Table) (line : String) : Table :=
  let p := split_once ';' line.data
  let temp := parse_temperature p.2
  entryUpsert ⟨p.1⟩ (fun e => e.update temp) (StationData.new.update temp) acc

/-- The body of the rayon `reduce` closure: fold every entry of `h` into
`acc` through the entry API. -/
def mergeTables (acc h : Table) : Table :=
  h.foldl (fun a p => entryUpsert p.1 (fun e => e.aggregate p.2) p.2 a) acc

/-- Single-pass aggregation of a list of lines (the rayon fold with one
partition). -/
def aggLines (lines : List String) : Table := lines.foldl process_line []

/-- The station (key) substring of a line. -/
def stationOf (line : String) : String := ⟨(split_once ';' line.data).1⟩

/-- The parsed reading of a line. -/
def readingOf (line : String) : Int :=
  parse_temperature (split_once ';' line.data).2

/-- The parsed readings of all lines carrying key `k`, in input order. -/
def readingsOf (k : String) (lines : List String) : List Int :=
  (lines.filter fun l => stationOf l == k).map readingOf

/-- Lookup-extensional equality: the equality of the hashbrown maps the
tables model. -/
def TableEquiv (t1 t2 : Table) : Prop := ∀ k, tlookup k t1 = tlookup k t2

/-- The table's keys are pairwise distinct (every reachable `HashMap`
satisfies this by construction). -/
def KeysNodup (t : Table) : Prop := (t.map Prod.fst).Nodup

instance (t : Table) : Decidable (KeysNodup t) :=
  inferInstanceAs (Decidable (t.map Prod.fst).Nodup)

/-- Keywise combination of optional stats, as the merge loop performs it. -/
def combineOpt : Option StationData → Option StationData → Option StationData
  | none, o => o
  | some s, none => some s
  | some s, some o => some (s.aggregate o)

/-- The per-key summary a list of readings folds to: `none` for no
readings, otherwise `new().update r₀` folded with the remaining readings. -/
def statsFold : List Int → Option StationData
  | [] => none
  | r :: rest => some (rest.foldl StationData.update (StationData.new.update r))

/-- A reduction tree over partition tables (rayon's `reduce` combines
partial results in an arbitrary tree shape). -/
inductive TableTree where
  | leaf : Table → TableTree
  | node : TableTree → TableTree → TableTree

/-- Tree reduction with `mergeTables` at every node. -/
def TableTree.reduceT : TableTree → Table
  | .leaf t => t
  | .node l r => mergeTables l.reduceT r.reduceT

/-- The leaf tables of a reduction tree, left to right. -/
def TableTree.leaves : TableTree → List Table
  | .leaf t => [t]
  | .node l r => l.leaves ++ r.leaves

/-- Every leaf table has pairwise-distinct keys. -/
def TableTree.LeavesNodup (tr : TableTree) : Prop :=
  ∀ t ∈ tr.leaves, KeysNodup t

/-- The ASCII digit character of `d` (meaningful for `d ≤ 9`). -/
def digitChar (d : Nat) : Char := Char.ofNat (48 + d)

/-- Decimal digits of a natural number, most significant first (structural
recursion on a fuel bound, so that the kernel can evaluate it; the fuel `n`
always suffices since `n / 10` shrinks). -/
def natToDigitsAux : Nat → Nat → List Char
  | 0, n => [digitChar (n % 10)]
  | fuel + 1, n =>
    if n < 10 then [digitChar n]
    else natToDigitsAux fuel (n / 10) ++ [digitChar (n % 10)]

/-- Decimal digits of a natural number, most significant first. -/
def natToDigits (n : Nat) : List Char := natToDigitsAux n n

/-- Decimal rendering with one fractional digit of a value held in tenths:
the exact result of Rust's `{:.1}` applied to `(v as f32) / 10.0`, which is
exact for the whole i8 range. -/
def fmtTenths (v : Int) : String :=
  ⟨(if v < 0 then ['-'] else []) ++ natToDigits (v.natAbs / 10)
    ++ ['.'] ++ [digitChar (v.natAbs % 10)]⟩

/-- Nearest natural with ties to even of the fraction `a / b` (`b ≠ 0`),
the rounding `{:.1}` applies to the exact quotient. -/
def roundHalfEvenFrac (a b : Nat) : Nat :=
  let fl := a / b
  let rem := a % b
  if 2 * rem < b then fl
  else if b < 2 * rem then fl + 1
  else if fl % 2 = 0 then fl else fl + 1

/-- Rendering of the mean field: `total as f32 / (count as f32 * 10.0)`
printed with `{:.1}`.  The quotient in display units is
`total / (10 * count)`, so the digit string at one decimal is the
round-half-to-even of `|total| / |count|` rendered in tenths, with the
quotient's sign in front; when `count = 0` the f32 quotient is nonfinite
and prints as `NaN` / `inf` / `-inf`. -/
def meanStr (total count : Int) : String :=
  if count = 0 then
    if total = 0 then "NaN" else if 0 < total then "inf" else "-inf"
  else
    let neg : Bool := (total < 0 && 0 < count) || (0 < total && count < 0)
    let r := roundHalfEvenFrac total.natAbs count.natAbs
    ⟨(if neg then ['-'] else []) ++ natToDigits (r / 10)
      ++ ['.'] ++ [digitChar (r % 10)]⟩

/-- The `min/mean/max` string built for one entry. -/
def resultString (d : StationData) : String :=
  fmtTenths d.min_temp ++ "/" ++ meanStr d.total_temp d.count
    ++ "/" ++ fmtTenths d.max_temp

/-- The comparison `sort_unstable_by` uses: ascending key order. -/
def keyLE (a b : String × String) : Prop := a.1 ≤ b.1

/-- Kernel-computable decision procedure for string order (the library's
iterator-based one does not reduce definitionally). -/
def strDecLe (a b : String) : Decidable (a ≤ b) :=
  decidable_of_iff (¬ b.data < a.data) (by rw [String.le_iff_toList_le]; exact not_lt)

instance : DecidableRel keyLE := fun a b => strDecLe a.1 b.1

instance : IsTotal (String × String) keyLE := ⟨fun a b => le_total a.1 b.1⟩

instance : IsTrans (String × String) keyLE := ⟨fun _ _ _ h1 h2 => le_trans h1 h2⟩

/-- The sorted `(name, "min/mean/max")` pairs of the formatting phase. -/
def sortedPairs (t : Table) : List (String × String) :=
  List.insertionSort keyLE (t.map fun p => (p.1, resultString p.2))

/-- The output-assembly loop of `main`: map every entry to its result
string, sort by name, then fold with `", "` before every entry but the
first, between `'\x7b'` and `'\x7d'` plus the trailing newline pushed onto
`output_result`. -/
def formatOutput (t : Table) : String :=
  let body := ((sortedPairs t).enum).foldl
    (fun acc q => acc ++ (if 0 < q.1 then ", " else "") ++ q.2.1 ++ "=" ++ q.2.2) ""
  "\x7b" ++ body ++ "\x7d" ++ "\n"

/-- Split a character list at every occurrence of `d`, keeping empty
segments (the semantics of splitting on a delimiter). -/
def splitOnChar (d : Char) : List Char → List (List Char)
  | [] => [[]]
  | c :: rest =>
    if c = d then [] :: splitOnChar d rest
    else
      match splitOnChar d rest with
      | s :: ss => (c :: s) :: ss
      | [] => [[c]]

/-- Rust `str::lines`: split on `'\n'`, drop the final empty piece produced
by a trailing newline, strip one trailing `'\r'` from each line. -/
def linesOf (s : String) : List String :=
  let parts := (splitOnChar '\n' s.data).map fun l => String.mk l
  let parts := if parts.getLast? = some "" then parts.dropLast else parts
  parts.map fun l => if l.data.getLast? = some '\r' then ⟨l.data.dropLast⟩ else l

/-- The whole pipeline of `main` on the file contents: line split,
aggregation, formatting.  (The rayon fold/reduce over several partitions is
related to this single-pass reference by the partition-invariance theorems
below.) -/
def runPipeline (input : String) : String := formatOutput (aggLines (linesOf input))

/-- Spec-side predicate (from the output format's words): an optional `'-'`,
at least one digit, `'.'`, and exactly one fractional digit. -/
def isFixed1Rev : List Char → Bool
  | d :: '.' :: rest => isAsciiDigit d && !rest.isEmpty && rest.all isAsciiDigit
  | _ => false

/-- Strip one optional leading `'-'`. -/
def stripNeg (l : List Char) : List Char :=
  match l with
  | c :: rest => if c = '-' then rest else l
  | [] => []

/-- Spec-side: `s` is a fixed-point numeral with exactly one fractional
digit. -/
def isFixed1 (s : String) : Bool := isFixed1Rev (stripNeg s.data).reverse

/-- Spec-side: entries joined with the separator `", "`. -/
def entriesBody : List String → String
  | [] => ""
  | x :: rest => rest.foldl (fun a e => a ++ ", " ++ e) x

/-- The accumulator trajectory of `parse_temperature` restricted to its
`temp` component: digits shift and add (wrapping), everything else leaves
`temp` unchanged. -/
def digitStep (t : Int) (c : Char) : Int :=
  if isAsciiDigit c then wrap8 (wrap8 (t * 10) + ((c.toNat : Int) - 48)) else t

/-- The wrapped digit accumulation of a token, ignoring sign. -/
def digitAccum (bytes : List Char) : Int := bytes.foldl digitStep 0

/-- A well-formed value token with one integer digit: optional `'-'`, a
digit, `'.'`, one fractional digit. -/
def token1 (neg : Bool) (d1 d3 : Nat) : List Char :=
  (if neg then ['-'] else []) ++ [digitChar d1, '.', digitChar d3]

/-- A well-formed value token with two integer digits: optional `'-'`, two
digits, `'.'`, one fractional digit. -/
def token2 (neg : Bool) (d1 d2 d3 : Nat) : List Char :=
  (if neg then ['-'] else []) ++ [digitChar d1, digitChar d2, '.', digitChar d3]

/-! ### Arithmetic lemmas about the i8 model -/

theorem wrap8_lb (x : Int) : -128 ≤ wrap8 x := by unfold wrap8; omega

theorem wrap8_ub (x : Int) : wrap8 x ≤ 127 := by unfold wrap8; omega

theorem wrap8_eq_self {x : Int} (h1 : -128 ≤ x) (h2 : x ≤ 127) : wrap8 x = x := by
  unfold wrap8; omega

theorem wrap8_wrap8_left (a b : Int) : wrap8 (wrap8 a + b) = wrap8 (a + b) := by
  unfold wrap8; omega

theorem wrap8_wrap8_right (a b : Int) : wrap8 (a + wrap8 b) = wrap8 (a + b) := by
  unfold wrap8; omega

theorem aggregate_assoc (a b c : StationData) :
    (a.aggregate b).aggregate c = a.aggregate (b.aggregate c) := by
  cases a; cases b; cases c
  simp only [StationData.aggregate, StationData.mk.injEq]
  refine ⟨min_assoc _ _ _, max_assoc _ _ _, ?_, ?_⟩ <;> (unfold wrap8; omega)

theorem aggregate_comm (a b : StationData) : a.aggregate b = b.aggregate a := by
  cases a; cases b
  simp only [StationData.aggregate, StationData.mk.injEq]
  refine ⟨min_comm _ _, max_comm _ _, ?_, ?_⟩ <;> (unfold wrap8; omega)

/-! ### Lemmas about the parsing loop -/

theorem parseStep_dash (st : ParseState) :
    parseStep st '-' = { st with negative := true } := by
  simp [parseStep]

theorem parseStep_dot (st : ParseState) :
    parseStep st '.' = { st with decimal_found := true } := by
  simp [parseStep]

theorem isAsciiDigit_ne_dash {c : Char} (h : isAsciiDigit c = true) : c ≠ '-' := by
  intro e; subst e; simp [isAsciiDigit] at h

theorem isAsciiDigit_ne_dot {c : Char} (h : isAsciiDigit c = true) : c ≠ '.' := by
  intro e; subst e; simp [isAsciiDigit] at h

theorem parseStep_digit (st : ParseState) {c : Char} (h : isAsciiDigit c = true) :
    parseStep st c =
      { st with
        temp := wrap8 (wrap8 (st.temp * 10) + ((c.toNat : Int) - 48)),
        decimal_found := false } := by
  have h1 := isAsciiDigit_ne_dash h
  have h2 := isAsciiDigit_ne_dot h
  cases hd : st.decimal_found <;> simp [parseStep, h, h1, h2, hd]

theorem parseStep_skip (st : ParseState) {c : Char} (h : isAsciiDigit c = false)
    (h1 : c ≠ '-') (h2 : c ≠ '.') : parseStep st c = st := by
  simp [parseStep, h, h1, h2]

theorem isAsciiDigit_dash : isAsciiDigit '-' = false := by decide

theorem isAsciiDigit_dot : isAsciiDigit '.' = false := by decide

theorem foldl_parseStep_temp (bytes : List Char) :
    ∀ st : ParseState,
      (List.foldl parseStep st bytes).temp = List.foldl digitStep st.temp bytes := by
  induction bytes with
  | nil => intro st; rfl
  | cons c rest ih =>
    intro st
    by_cases hc : c = '-'
    · subst hc
      simp only [List.foldl_cons, parseStep_dash, ih, digitStep, isAsciiDigit_dash,
        Bool.false_eq_true, if_false]
    · by_cases hc2 : c = '.'
      · subst hc2
        simp only [List.foldl_cons, parseStep_dot, ih, digitStep, isAsciiDigit_dot,
          Bool.false_eq_true, if_false]
      · by_cases hd : isAsciiDigit c
        · simp only [List.foldl_cons, parseStep_digit _ hd, ih, digitStep, hd, if_true]
        · simp only [Bool.not_eq_true] at hd
          simp only [List.foldl_cons, parseStep_skip _ hd hc hc2, ih, digitStep, hd,
            Bool.false_eq_true, if_false]

theorem foldl_parseStep_negative (bytes : List Char) :
    ∀ st : ParseState,
      (List.foldl parseStep st bytes).negative
        = (st.negative || bytes.any fun c => c == '-') := by
  induction bytes with
  | nil => intro st; simp
  | cons c rest ih =>
    intro st
    by_cases hc : c = '-'
    · subst hc
      simp [List.foldl_cons, parseStep_dash, ih]
    · by_cases hc2 : c = '.'
      · subst hc2
        simp [List.foldl_cons, parseStep_dot, ih]
      · have hb : (c == '-') = false := beq_eq_false_iff_ne.mpr hc
        by_cases hd : isAsciiDigit c
        · simp [List.foldl_cons, parseStep_digit _ hd, ih, hb]
        · simp only [Bool.not_eq_true] at hd
          simp [List.foldl_cons, parseStep_skip _ hd hc hc2, ih, hb]

theorem foldl_digitStep_range {t : Int} (bytes : List Char)
    (h1 : -128 ≤ t) (h2 : t ≤ 127) :
    -128 ≤ List.foldl digitStep t bytes ∧ List.foldl digitStep t bytes ≤ 127 := by
  induction bytes generalizing t with
  | nil => exact ⟨h1, h2⟩
  | cons c rest ih =>
    simp only [List.foldl_cons, digitStep]
    by_cases hd : isAsciiDigit c
    · simp only [hd, if_true]
      exact ih (wrap8_lb _) (wrap8_ub _)
    · simp only [Bool.not_eq_true] at hd
      simp only [hd, Bool.false_eq_true, if_false]
      exact ih h1 h2

theorem parse_temperature_lb (bytes : List Char) : -128 ≤ parse_temperature bytes := by
  have ht := foldl_parseStep_temp bytes ⟨0, false, false⟩
  have hr := foldl_digitStep_range (t := 0) bytes (by omega) (by omega)
  cases hneg : (List.foldl parseStep ⟨0, false, false⟩ bytes).negative
  · simp only [parse_temperature, hneg, Bool.false_eq_true, if_false]
    simp only [ParseState.temp] at ht
    omega
  · simp only [parse_temperature, hneg, if_true]
    exact wrap8_lb _

/-! ### Stats-level fold lemmas -/

theorem new_update {r : Int} (h1 : -128 ≤ r) (h2 : r ≤ 127) :
    StationData.new.update r = ⟨r, r, r, 1⟩ := by
  simp only [StationData.new, StationData.update, StationData.mk.injEq]
  refine ⟨min_eq_right h2, max_eq_right h1, ?_, ?_⟩ <;> (unfold wrap8; omega)

theorem update_eq_aggregate (s : StationData) (r : Int) :
    s.update r = s.aggregate ⟨r, r, r, 1⟩ := rfl

theorem combineOpt_none_left (o : Option StationData) : combineOpt none o = o := rfl

theorem combineOpt_none_right (o : Option StationData) : combineOpt o none = o := by
  cases o <;> rfl

theorem combineOpt_some_some (a b : StationData) :
    combineOpt (some a) (some b) = some (a.aggregate b) := rfl

theorem combineOpt_assoc (a b c : Option StationData) :
    combineOpt (combineOpt a b) c = combineOpt a (combineOpt b c) := by
  cases a <;> cases b <;> cases c <;> simp [combineOpt, aggregate_assoc]

theorem combineOpt_comm (a b : Option StationData) :
    combineOpt a b = combineOpt b a := by
  cases a <;> cases b <;> simp [combineOpt, aggregate_comm]

theorem foldl_update_combine (rs : List Int)
    (hrs : ∀ r ∈ rs, -128 ≤ r ∧ r ≤ 127) :
    ∀ s : StationData,
      some (rs.foldl StationData.update s) = combineOpt (some s) (statsFold rs) := by
  induction rs with
  | nil => intro s; rfl
  | cons r rest ih =>
    intro s
    have hr := hrs r (List.mem_cons_self r rest)
    have hrest : ∀ x ∈ rest, -128 ≤ x ∧ x ≤ 127 :=
      fun x hx => hrs x (List.mem_cons_of_mem r hx)
    have hfresh : s.update r = s.aggregate (StationData.new.update r) := by
      rw [new_update hr.1 hr.2]; exact update_eq_aggregate s r
    calc some (List.foldl StationData.update s (r :: rest))
        = some (List.foldl StationData.update (s.update r) rest) := rfl
      _ = combineOpt (some (s.update r)) (statsFold rest) := ih hrest (s.update r)
      _ = combineOpt (combineOpt (some s) (some (StationData.new.update r)))
            (statsFold rest) := by rw [hfresh, combineOpt_some_some]
      _ = combineOpt (some s)
            (combineOpt (some (StationData.new.update r)) (statsFold rest)) :=
          combineOpt_assoc _ _ _
      _ = combineOpt (some s)
            (some (List.foldl StationData.update (StationData.new.update r) rest)) := by
          rw [ih hrest (StationData.new.update r)]
      _ = combineOpt (some s) (statsFold (r :: rest)) := rfl

theorem statsFold_append (r1 r2 : List Int)
    (h2 : ∀ r ∈ r2, -128 ≤ r ∧ r ≤ 127) :
    statsFold (r1 ++ r2) = combineOpt (statsFold r1) (statsFold r2) := by
  cases r1 with
  | nil => rfl
  | cons r rest =>
    have e1 : statsFold ((r :: rest) ++ r2)
        = some (List.foldl StationData.update (StationData.new.update r) (rest ++ r2)) := rfl
    have e2 : statsFold (r :: rest)
        = some (List.foldl StationData.update (StationData.new.update r) rest) := rfl
    rw [e1, e2, List.foldl_append, foldl_update_combine r2 h2]

/-! ### Table lookup lemmas -/

theorem tlookup_entryUpsert (k k' : String) (f : StationData → StationData)
    (ini : StationData) (t : Table) :
    tlookup k' (entryUpsert k f ini t)
      = if k = k' then
          (match tlookup k t with
            | none => some ini
            | some s => some (f s))
        else tlookup k' t := by
  induction t with
  | nil => by_cases h : k = k' <;> simp [entryUpsert, tlookup, h]
  | cons p rest ih =>
    obtain ⟨k2, d⟩ := p
    by_cases h2 : k2 = k
    · subst h2
      by_cases h : k2 = k' <;> simp [entryUpsert, tlookup, h]
    · by_cases h3 : k2 = k'
      · subst h3
        have : ¬ k = k2 := fun e => h2 e.symm
        simp [entryUpsert, tlookup, h2, this]
      · simp [entryUpsert, tlookup, h2, h3, ih]

theorem tlookup_eq_none_of_not_mem {k : String} {t : Table}
    (h : k ∉ t.map Prod.fst) : tlookup k t = none := by
  induction t with
  | nil => rfl
  | cons p rest ih =>
    obtain ⟨k1, d⟩ := p
    simp only [List.map_cons, List.mem_cons] at h
    push_neg at h
    have : ¬ k1 = k := fun e => h.1 e.symm
    simp [tlookup, this, ih h.2]

theorem keys_entryUpsert (k : String) (f : StationData → StationData)
    (ini : StationData) (t : Table) :
    (entryUpsert k f ini t).map Prod.fst
      = if k ∈ t.map Prod.fst then t.map Prod.fst else t.map Prod.fst ++ [k] := by
  induction t with
  | nil => simp [entryUpsert]
  | cons p rest ih =>
    obtain ⟨k1, d⟩ := p
    by_cases h : k1 = k
    · subst h
      simp [entryUpsert]
    · have : ¬ k = k1 := fun e => h e.symm
      by_cases hm : k ∈ rest.map Prod.fst <;>
        simp [entryUpsert, h, this, hm, ih]

theorem keysNodup_entryUpsert {t : Table} (h : KeysNodup t)
    (k : String) (f : StationData → StationData) (ini : StationData) :
    KeysNodup (entryUpsert k f ini t) := by
  unfold KeysNodup at h ⊢
  rw [keys_entryUpsert]
  by_cases hm : k ∈ t.map Prod.fst
  · simpa [hm] using h
  · simp [hm, List.nodup_append, h]

theorem parse_temperature_ub (bytes : List Char) : parse_temperature bytes ≤ 127 := by
  have ht := foldl_parseStep_temp bytes ⟨0, false, false⟩
  have hr := foldl_digitStep_range (t := 0) bytes (by omega) (by omega)
  cases hneg : (List.foldl parseStep ⟨0, false, false⟩ bytes).negative
  · simp only [parse_temperature, hneg, Bool.false_eq_true, if_false]
    simp only [ParseState.temp] at ht
    omega
  · simp only [parse_temperature, hneg, if_true]
    exact wrap8_ub _

/-! ### Lemmas about `process_line`, `aggLines` and `mergeTables` -/

theorem readingsOf_cons_pos {line k : String} (rest : List String)
    (h : stationOf line = k) :
    readingsOf k (line :: rest) = readingOf line :: readingsOf k rest := by
  simp [readingsOf, List.filter_cons, h]

theorem readingsOf_cons_neg {line k : String} (rest : List String)
    (h : ¬ stationOf line = k) :
    readingsOf k (line :: rest) = readingsOf k rest := by
  simp [readingsOf, List.filter_cons, h]

theorem readingsOf_append (k : String) (l1 l2 : List String) :
    readingsOf k (l1 ++ l2) = readingsOf k l1 ++ readingsOf k l2 := by
  simp [readingsOf, List.filter_append]

theorem readingsOf_range (k : String) (lines : List String) :
    ∀ r ∈ readingsOf k lines, -128 ≤ r ∧ r ≤ 127 := by
  intro r hr
  simp only [readingsOf, List.mem_map] at hr
  obtain ⟨l, _, rfl⟩ := hr
  exact ⟨parse_temperature_lb _, parse_temperature_ub _⟩

theorem tlookup_process_line (acc : Table) (line : String) (k : String) :
    tlookup k (process_line acc line)
      = if stationOf line = k
        then combineOpt (tlookup k acc)
          (some (StationData.new.update (readingOf line)))
        else tlookup k acc := by
  have hlb := parse_temperature_lb (split_once ';' line.data).2
  have hub := parse_temperature_ub (split_once ';' line.data).2
  unfold process_line stationOf readingOf
  rw [tlookup_entryUpsert]
  by_cases h : String.mk (split_once ';' line.data).1 = k
  · simp only [h, if_true]
    cases hl : tlookup k acc
    · rfl
    · rename_i s
      simp only [combineOpt_some_some]
      rw [new_update hlb hub]
      rfl
  · simp only [h, if_false]

theorem tlookup_foldl_process_line (lines : List String) :
    ∀ (t : Table) (k : String),
      tlookup k (List.foldl process_line t lines)
        = combineOpt (tlookup k t) (statsFold (readingsOf k lines)) := by
  induction lines with
  | nil =>
    intro t k
    show tlookup k t = combineOpt (tlookup k t) (statsFold [])
    rw [show statsFold [] = none from rfl, combineOpt_none_right]
  | cons line rest ih =>
    intro t k
    have hstep : tlookup k (List.foldl process_line t (line :: rest))
        = combineOpt (tlookup k (process_line t line)) (statsFold (readingsOf k rest)) :=
      ih (process_line t line) k
    rw [hstep, tlookup_process_line]
    by_cases h : stationOf line = k
    · simp only [h, if_true]
      rw [readingsOf_cons_pos rest h]
      have hr : -128 ≤ readingOf line ∧ readingOf line ≤ 127 :=
        ⟨parse_temperature_lb _, parse_temperature_ub _⟩
      have e1 : statsFold (readingOf line :: readingsOf k rest)
          = some (List.foldl StationData.update
              (StationData.new.update (readingOf line)) (readingsOf k rest)) := rfl
      rw [e1, foldl_update_combine _ (readingsOf_range k rest)]
      exact combineOpt_assoc _ _ _
    · simp only [h, if_false]
      rw [readingsOf_cons_neg rest h]

theorem tlookup_aggLines (lines : List String) (k : String) :
    tlookup k (aggLines lines) = statsFold (readingsOf k lines) := by
  have := tlookup_foldl_process_line lines [] k
  rwa [show tlookup k ([] : Table) = none from rfl, combineOpt_none_left] at this

theorem keysNodup_process_line {acc : Table} (h : KeysNodup acc) (line : String) :
    KeysNodup (process_line acc line) :=
  keysNodup_entryUpsert h _ _ _

theorem keysNodup_foldl_process_line (lines : List String) :
    ∀ {t : Table}, KeysNodup t → KeysNodup (List.foldl process_line t lines) := by
  induction lines with
  | nil => intro t h; exact h
  | cons line rest ih => intro t h; exact ih (keysNodup_process_line h line)

theorem keysNodup_aggLines (lines : List String) : KeysNodup (aggLines lines) :=
  keysNodup_foldl_process_line lines (by simp [KeysNodup])

theorem mergeTables_cons (t : Table) (p : String × StationData) (rest : Table) :
    mergeTables t (p :: rest)
      = mergeTables (entryUpsert p.1 (fun e => e.aggregate p.2) p.2 t) rest := rfl

theorem keysNodup_mergeTables (h : Table) :
    ∀ {t : Table}, KeysNodup t → KeysNodup (mergeTables t h) := by
  induction h with
  | nil => intro t ht; exact ht
  | cons p rest ih =>
    intro t ht
    rw [mergeTables_cons]
    exact ih (keysNodup_entryUpsert ht _ _ _)

theorem tlookup_mergeTables {h : Table} (hnd : KeysNodup h) :
    ∀ (t : Table) (k : String),
      tlookup k (mergeTables t h) = combineOpt (tlookup k t) (tlookup k h) := by
  induction h with
  | nil =>
    intro t k
    rw [show tlookup k ([] : Table) = none from rfl, combineOpt_none_right]
    rfl
  | cons p rest ih =>
    intro t k
    obtain ⟨k1, d⟩ := p
    have hnd' : k1 ∉ rest.map Prod.fst ∧ KeysNodup rest := by
      simpa [KeysNodup] using hnd
    rw [mergeTables_cons, ih hnd'.2, tlookup_entryUpsert]
    by_cases hk : k1 = k
    · subst hk
      rw [tlookup_eq_none_of_not_mem hnd'.1, combineOpt_none_right]
      have : tlookup k1 ((k1, d) :: rest) = some d := by simp [tlookup]
      rw [this]
      cases tlookup k1 t <;> simp [combineOpt]
    · simp only [hk, if_false]
      have : tlookup k ((k1, d) :: rest) = tlookup k rest := by simp [tlookup, hk]
      rw [this]

/-! ### Fold / tree-reduction lemmas -/

theorem foldl_combineOpt_pull (os : List (Option StationData)) :
    ∀ a : Option StationData,
      List.foldl combineOpt a os = combineOpt a (List.foldl combineOpt none os) := by
  induction os with
  | nil => intro a; exact (combineOpt_none_right a).symm
  | cons o os ih =>
    intro a
    calc List.foldl combineOpt a (o :: os)
        = List.foldl combineOpt (combineOpt a o) os := rfl
      _ = combineOpt (combineOpt a o) (List.foldl combineOpt none os) := ih _
      _ = combineOpt a (combineOpt o (List.foldl combineOpt none os)) :=
          combineOpt_assoc _ _ _
      _ = combineOpt a (combineOpt (combineOpt none o) (List.foldl combineOpt none os)) := rfl
      _ = combineOpt a (List.foldl combineOpt (combineOpt none o) os) := by rw [← ih _]
      _ = combineOpt a (List.foldl combineOpt none (o :: os)) := rfl

theorem tlookup_foldl_mergeTables (ts : List Table) (hts : ∀ t ∈ ts, KeysNodup t) :
    ∀ (a : Table) (k : String),
      tlookup k (List.foldl mergeTables a ts)
        = List.foldl combineOpt (tlookup k a) (ts.map (tlookup k)) := by
  induction ts with
  | nil => intro a k; rfl
  | cons t ts ih =>
    intro a k
    have h1 : KeysNodup t := hts t (List.mem_cons_self t ts)
    have h2 : ∀ u ∈ ts, KeysNodup u := fun u hu => hts u (List.mem_cons_of_mem t hu)
    calc tlookup k (List.foldl mergeTables a (t :: ts))
        = tlookup k (List.foldl mergeTables (mergeTables a t) ts) := rfl
      _ = List.foldl combineOpt (tlookup k (mergeTables a t)) (ts.map (tlookup k)) :=
          ih h2 _ k
      _ = List.foldl combineOpt (combineOpt (tlookup k a) (tlookup k t))
            (ts.map (tlookup k)) := by rw [tlookup_mergeTables h1]
      _ = List.foldl combineOpt (tlookup k a) ((t :: ts).map (tlookup k)) := rfl

theorem leavesNodup_node_left {l r : TableTree}
    (h : (TableTree.node l r).LeavesNodup) : l.LeavesNodup := by
  intro t ht
  exact h t (by simp [TableTree.leaves, ht])

theorem leavesNodup_node_right {l r : TableTree}
    (h : (TableTree.node l r).LeavesNodup) : r.LeavesNodup := by
  intro t ht
  exact h t (by simp [TableTree.leaves, ht])

theorem keysNodup_reduceT (tr : TableTree) (h : tr.LeavesNodup) :
    KeysNodup tr.reduceT := by
  induction tr with
  | leaf t => exact h t (by simp [TableTree.leaves])
  | node l r ihl ihr =>
    exact keysNodup_mergeTables _ (ihl (leavesNodup_node_left h))

theorem tlookup_reduceT (tr : TableTree) (h : tr.LeavesNodup) (k : String) :
    tlookup k tr.reduceT
      = List.foldl combineOpt none (tr.leaves.map (tlookup k)) := by
  induction tr with
  | leaf t =>
    show tlookup k t = combineOpt none (tlookup k t)
    rfl
  | node l r ihl ihr =>
    have hl := leavesNodup_node_left h
    have hr := leavesNodup_node_right h
    calc tlookup k (TableTree.node l r).reduceT
        = tlookup k (mergeTables l.reduceT r.reduceT) := rfl
      _ = combineOpt (tlookup k l.reduceT) (tlookup k r.reduceT) :=
          tlookup_mergeTables (keysNodup_reduceT r hr) _ k
      _ = combineOpt (List.foldl combineOpt none (l.leaves.map (tlookup k)))
            (List.foldl combineOpt none (r.leaves.map (tlookup k))) := by
          rw [ihl hl, ihr hr]
      _ = List.foldl combineOpt (List.foldl combineOpt none (l.leaves.map (tlookup k)))
            (r.leaves.map (tlookup k)) := (foldl_combineOpt_pull _ _).symm
      _ = List.foldl combineOpt none ((TableTree.node l r).leaves.map (tlookup k)) := by
          rw [show (TableTree.node l r).leaves = l.leaves ++ r.leaves from rfl,
            List.map_append, List.foldl_append]

/-! ### Lemmas about the digit renderer and the fixed-point shape -/

theorem digitChar_isDigit {d : Nat} (h : d ≤ 9) : isAsciiDigit (digitChar d) = true := by
  interval_cases d <;> decide

theorem isDigit_ne_dash {c : Char} (h : isAsciiDigit c = true) : ¬ c = '-' := by
  intro e; subst e; exact absurd h (by decide)

theorem natToDigitsAux_all_digit :
    ∀ fuel n, ∀ c ∈ natToDigitsAux fuel n, isAsciiDigit c = true := by
  intro fuel
  induction fuel with
  | zero =>
    intro n c hc
    simp only [natToDigitsAux, List.mem_singleton] at hc
    subst hc
    exact digitChar_isDigit (by omega)
  | succ fuel ih =>
    intro n c hc
    rw [natToDigitsAux] at hc
    split at hc
    · simp only [List.mem_singleton] at hc
      subst hc
      exact digitChar_isDigit (by omega)
    · rw [List.mem_append] at hc
      rcases hc with hc | hc
      · exact ih _ c hc
      · simp only [List.mem_singleton] at hc
        subst hc
        exact digitChar_isDigit (by omega)

theorem natToDigits_all_digit (n : Nat) :
    ∀ c ∈ natToDigits n, isAsciiDigit c = true :=
  natToDigitsAux_all_digit n n

theorem natToDigitsAux_ne_nil (fuel n : Nat) : natToDigitsAux fuel n ≠ [] := by
  cases fuel with
  | zero => simp [natToDigitsAux]
  | succ fuel =>
    rw [natToDigitsAux]
    split <;> simp

theorem natToDigits_ne_nil (n : Nat) : natToDigits n ≠ [] :=
  natToDigitsAux_ne_nil n n

theorem isFixed1Rev_true {digits : List Char} {last : Char} (hne : digits ≠ [])
    (hd : ∀ c ∈ digits, isAsciiDigit c = true) (hl : isAsciiDigit last = true) :
    isFixed1Rev (digits ++ ['.'] ++ [last]).reverse = true := by
  have hrev : (digits ++ ['.'] ++ [last]).reverse = last :: '.' :: digits.reverse := by
    simp
  rw [hrev]
  have hre : digits.reverse ≠ [] := by simpa using hne
  have hall : digits.reverse.all isAsciiDigit = true := by
    rw [List.all_eq_true]
    intro c hc
    exact hd c (List.mem_reverse.mp hc)
  simp [isFixed1Rev, hl, hall, List.isEmpty_iff, hre]

theorem isFixed1_core (pre digits : List Char) (last : Char)
    (hpre : pre = ['-'] ∨ pre = []) (hne : digits ≠ [])
    (hd : ∀ c ∈ digits, isAsciiDigit c = true) (hl : isAsciiDigit last = true) :
    isFixed1 ⟨pre ++ digits ++ ['.'] ++ [last]⟩ = true := by
  unfold isFixed1
  have hstrip : stripNeg (pre ++ digits ++ ['.'] ++ [last]) = digits ++ ['.'] ++ [last] := by
    rcases hpre with h | h <;> subst h
    · simp [stripNeg]
    · obtain ⟨c, cs, rfl⟩ := List.exists_cons_of_ne_nil hne
      have : ¬ c = '-' := isDigit_ne_dash (hd c (List.mem_cons_self c cs))
      simp [stripNeg, this]
  rw [show String.data ⟨pre ++ digits ++ ['.'] ++ [last]⟩ = pre ++ digits ++ ['.'] ++ [last]
    from rfl, hstrip]
  exact isFixed1Rev_true hne hd hl

theorem isFixed1_fmtTenths (v : Int) : isFixed1 (fmtTenths v) = true := by
  unfold fmtTenths
  exact isFixed1_core _ _ _
    (by split <;> simp)
    (natToDigits_ne_nil _)
    (natToDigits_all_digit _)
    (digitChar_isDigit (by omega))

theorem isFixed1_meanStr (total count : Int) (h : ¬ count = 0) :
    isFixed1 (meanStr total count) = true := by
  unfold meanStr
  rw [if_neg h]
  exact isFixed1_core _ _ _
    (by split <;> simp)
    (natToDigits_ne_nil _)
    (natToDigits_all_digit _)
    (digitChar_isDigit (by omega))

/-! ### Lemmas about the output-assembly loop -/

/-! ### Symbolic evaluation of the parser on well-formed tokens -/

theorem digitChar_toNat {d : Nat} (h : d ≤ 9) : ((digitChar d).toNat : Int) = 48 + d := by
  interval_cases d <;> decide

theorem parseStep_digitChar (st : ParseState) {d : Nat} (h : d ≤ 9) :
    parseStep st (digitChar d)
      = { st with temp := wrap8 (wrap8 (st.temp * 10) + d), decimal_found := false } := by
  have h2 : ((digitChar d).toNat : Int) - 48 = (d : Int) := by rw [digitChar_toNat h]; omega
  rw [parseStep_digit st (digitChar_isDigit h), h2]

theorem parse_token1 (neg : Bool) {d1 d3 : Nat} (h1 : d1 ≤ 9) (h3 : d3 ≤ 9) :
    parse_temperature (token1 neg d1 d3)
      = if neg then wrap8 (-(wrap8 ((d1 * 10 + d3 : Nat) : Int)))
        else wrap8 ((d1 * 10 + d3 : Nat) : Int) := by
  have harg : wrap8 (wrap8 (wrap8 (wrap8 (0 * 10) + (d1 : Int)) * 10) + (d3 : Int))
      = wrap8 ((d1 * 10 + d3 : Nat) : Int) := by
    push_cast
    unfold wrap8
    omega
  cases neg with
  | false =>
    simp only [token1, Bool.false_eq_true, eq_self_iff_true, if_true, if_false,
      List.nil_append, List.singleton_append, parse_temperature, List.foldl_cons,
      List.foldl_nil, parseStep_dash, parseStep_dot, parseStep_digitChar _ h1,
      parseStep_digitChar _ h3]
    exact harg
  | true =>
    simp only [token1, Bool.false_eq_true, eq_self_iff_true, if_true, if_false,
      List.nil_append, List.singleton_append, parse_temperature, List.foldl_cons,
      List.foldl_nil, parseStep_dash, parseStep_dot, parseStep_digitChar _ h1,
      parseStep_digitChar _ h3]
    rw [harg]

theorem parse_token2 (neg : Bool) {d1 d2 d3 : Nat}
    (h1 : d1 ≤ 9) (h2 : d2 ≤ 9) (h3 : d3 ≤ 9) :
    parse_temperature (token2 neg d1 d2 d3)
      = if neg then wrap8 (-(wrap8 (((d1 * 10 + d2) * 10 + d3 : Nat) : Int)))
        else wrap8 (((d1 * 10 + d2) * 10 + d3 : Nat) : Int) := by
  have harg : wrap8 (wrap8 (wrap8 (wrap8 (wrap8 (wrap8 (0 * 10) + (d1 : Int)) * 10)
        + (d2 : Int)) * 10) + (d3 : Int))
      = wrap8 (((d1 * 10 + d2) * 10 + d3 : Nat) : Int) := by
    push_cast
    unfold wrap8
    omega
  cases neg with
  | false =>
    simp only [token2, Bool.false_eq_true, eq_self_iff_true, if_true, if_false,
      List.nil_append, List.singleton_append, parse_temperature, List.foldl_cons,
      List.foldl_nil, parseStep_dash, parseStep_dot, parseStep_digitChar _ h1,
      parseStep_digitChar _ h2, parseStep_digitChar _ h3]
    exact harg
  | true =>
    simp only [token2, Bool.false_eq_true, eq_self_iff_true, if_true, if_false,
      List.nil_append, List.singleton_append, parse_temperature, List.foldl_cons,
      List.foldl_nil, parseStep_dash, parseStep_dot, parseStep_digitChar _ h1,
      parseStep_digitChar _ h2, parseStep_digitChar _ h3]
    rw [harg]

theorem str_empty_append (s : String) : "" ++ s = s := by cases s; rfl

theorem foldl_enumFrom_body (l : List (String × String)) :
    ∀ (k : Nat) (acc : String), 0 < k →
      List.foldl
        (fun acc q => acc ++ (if 0 < q.1 then ", " else "") ++ q.2.1 ++ "=" ++ q.2.2)
        acc (List.enumFrom k l)
      = List.foldl (fun a e => a ++ ", " ++ e.1 ++ "=" ++ e.2) acc l := by
  induction l with
  | nil => intro k acc _; rfl
  | cons p rest ih =>
    intro k acc hk
    rw [List.enumFrom_cons]
    simp only [List.foldl_cons]
    rw [if_pos hk]
    exact ih (k + 1) _ (by omega)

theorem formatOutput_eq_body (t : Table) :
    formatOutput t
      = "\x7b" ++ entriesBody ((sortedPairs t).map fun q => q.1 ++ "=" ++ q.2)
        ++ "\x7d" ++ "\n" := by
  unfold formatOutput
  cases hsp : sortedPairs t with
  | nil => rfl
  | cons p rest =>
    have henum : List.enum (p :: rest) = (0, p) :: List.enumFrom 1 rest := by
      rw [show List.enum (p :: rest) = List.enumFrom 0 (p :: rest) from rfl,
        List.enumFrom_cons]
    rw [henum]
    simp only [List.foldl_cons]
    rw [if_neg (by omega), String.append_empty, str_empty_append]
    rw [foldl_enumFrom_body rest 1 _ (by omega)]
    have hmap : (p :: rest).map (fun q => q.1 ++ "=" ++ q.2)
        = (p.1 ++ "=" ++ p.2) :: rest.map (fun q => q.1 ++ "=" ++ q.2) := rfl
    rw [hmap]
    rw [show entriesBody ((p.1 ++ "=" ++ p.2) :: rest.map (fun q => q.1 ++ "=" ++ q.2))
        = (rest.map (fun q => q.1 ++ "=" ++ q.2)).foldl (fun a e => a ++ ", " ++ e)
            (p.1 ++ "=" ++ p.2) from rfl]
    rw [List.foldl_map]
    have hfun : (fun (a : String) (e : String × String) => a ++ ", " ++ (e.1 ++ "=" ++ e.2))
        = fun a e => a ++ ", " ++ e.1 ++ "=" ++ e.2 := by
      funext a e
      simp [String.append_assoc]
    rw [hfun]

/-! ### Sorting facts about the formatting phase -/

theorem sortedPairs_sorted (t : Table) : List.Sorted keyLE (sortedPairs t) :=
  List.sorted_insertionSort keyLE _

theorem sortedPairs_keys_perm (t : Table) :
    ((sortedPairs t).map Prod.fst).Perm (t.map Prod.fst) := by
  have h := (List.perm_insertionSort keyLE
    (t.map fun p => (p.1, resultString p.2))).map Prod.fst
  rw [List.map_map] at h
  exact h

theorem sortedPairs_keys_strict {t : Table} (h : KeysNodup t) :
    ((sortedPairs t).map Prod.fst).Pairwise (fun a b => a < b) := by
  have hnd : ((sortedPairs t).map Prod.fst).Nodup :=
    ((sortedPairs_keys_perm t).nodup_iff).mpr h
  have hle : ((sortedPairs t).map Prod.fst).Pairwise (fun a b => a ≤ b) :=
    List.pairwise_map.mpr (sortedPairs_sorted t)
  exact (hle.and hnd).imp fun hab => lt_of_le_of_ne hab.1 hab.2

theorem mem_sortedPairs {t : Table} {q : String × String} (hq : q ∈ sortedPairs t) :
    ∃ p ∈ t, q.1 = p.1
      ∧ q.2 = fmtTenths p.2.min_temp ++ "/" ++ meanStr p.2.total_temp p.2.count
          ++ "/" ++ fmtTenths p.2.max_temp := by
  rw [show sortedPairs t
      = List.insertionSort keyLE (t.map fun p => (p.1, resultString p.2)) from rfl,
    List.mem_insertionSort, List.mem_map] at hq
  obtain ⟨p, hp, heq⟩ := hq
  exact ⟨p, hp, by rw [← heq], by rw [← heq]; rfl⟩

/-! ### Aggregation over concatenated partition lists -/

theorem readingsOf_join (k : String) (parts : List (List String)) :
    readingsOf k parts.flatten = (parts.map (readingsOf k)).flatten := by
  induction parts with
  | nil => rfl
  | cons p ps ih =>
    rw [List.flatten_cons, readingsOf_append, ih, List.map_cons, List.flatten_cons]

theorem statsFold_join (k : String) (parts : List (List String)) :
    statsFold (readingsOf k parts.flatten)
      = List.foldl combineOpt none (parts.map fun p => statsFold (readingsOf k p)) := by
  induction parts with
  | nil => rfl
  | cons p ps ih =>
    calc statsFold (readingsOf k (p :: ps).flatten)
        = statsFold (readingsOf k p ++ readingsOf k ps.flatten) := by
          rw [List.flatten_cons, readingsOf_append]
      _ = combineOpt (statsFold (readingsOf k p)) (statsFold (readingsOf k ps.flatten)) :=
          statsFold_append _ _ (readingsOf_range k ps.flatten)
      _ = combineOpt (statsFold (readingsOf k p))
            (List.foldl combineOpt none (ps.map fun q => statsFold (readingsOf k q))) := by
          rw [ih]
      _ = List.foldl combineOpt (statsFold (readingsOf k p))
            (ps.map fun q => statsFold (readingsOf k q)) :=
          (foldl_combineOpt_pull _ _).symm
      _ = List.foldl combineOpt none
            (((p :: ps)).map fun q => statsFold (readingsOf k q)) := rfl

/-! ### Fold invariants used for the per-key statistics -/

theorem foldl_update_minmax (rest : List Int) :
    ∀ s0 : StationData,
      (List.foldl StationData.update s0 rest).min_temp ≤ s0.min_temp
      ∧ s0.max_temp ≤ (List.foldl StationData.update s0 rest).max_temp
      ∧ (∀ x ∈ rest, (List.foldl StationData.update s0 rest).min_temp ≤ x
          ∧ x ≤ (List.foldl StationData.update s0 rest).max_temp) := by
  induction rest with
  | nil => intro s0; exact ⟨le_refl _, le_refl _, by simp⟩
  | cons r rs ih =>
    intro s0
    have h := ih (s0.update r)
    have hmin : (s0.update r).min_temp = min s0.min_temp r := rfl
    have hmax : (s0.update r).max_temp = max s0.max_temp r := rfl
    rw [hmin] at h
    rw [hmax] at h
    refine ⟨le_trans h.1 (min_le_left _ _), le_trans (le_max_left _ _) h.2.1, ?_⟩
    intro x hx
    rcases List.mem_cons.mp hx with hx | hx
    · subst hx
      exact ⟨le_trans h.1 (min_le_right _ _), le_trans (le_max_right _ _) h.2.1⟩
    · exact h.2.2 x hx

theorem foldl_update_count_total (rest : List Int) :
    ∀ s0 : StationData, 0 ≤ s0.count → s0.count + rest.length ≤ 127 →
      -128 ≤ s0.total_temp → s0.total_temp ≤ 127 →
      (List.foldl StationData.update s0 rest).count = s0.count + rest.length
      ∧ (List.foldl StationData.update s0 rest).total_temp
          = wrap8 (s0.total_temp + rest.sum) := by
  induction rest with
  | nil =>
    intro s0 hc0 hc1 ht0 ht1
    rw [List.length_nil, List.sum_nil]
    rw [show s0.count + (0 : Nat) = s0.count by omega, add_zero,
      wrap8_eq_self ht0 ht1]
    exact ⟨rfl, rfl⟩
  | cons r rs ih =>
    intro s0 hc0 hc1 ht0 ht1
    rw [List.length_cons] at hc1
    have hstep := ih (s0.update r)
      (by rw [show (s0.update r).count = wrap8 (s0.count + 1) from rfl,
            wrap8_eq_self (by omega) (by push_cast at hc1; omega)]; omega)
      (by rw [show (s0.update r).count = wrap8 (s0.count + 1) from rfl,
            wrap8_eq_self (by omega) (by push_cast at hc1; omega)]; push_cast at hc1 ⊢; omega)
      (wrap8_lb _) (wrap8_ub _)
    constructor
    · rw [List.foldl_cons, hstep.1,
        show (s0.update r).count = wrap8 (s0.count + 1) from rfl,
        wrap8_eq_self (by omega) (by push_cast at hc1; omega),
        List.length_cons]
      push_cast
      omega
    · rw [List.foldl_cons, hstep.2,
        show (s0.update r).total_temp = wrap8 (s0.total_temp + r) from rfl,
        wrap8_wrap8_left, List.sum_cons]
      rw [show s0.total_temp + r + rs.sum = s0.total_temp + (r + rs.sum) by omega]

theorem length_mul_le_sum (l : List Int) (m : Int) (h : ∀ x ∈ l, m ≤ x) :
    (l.length : Int) * m ≤ l.sum := by
  induction l with
  | nil => simp
  | cons x xs ih =>
    have h1 : m ≤ x := h x (List.mem_cons_self x xs)
    have h2 := ih fun y hy => h y (List.mem_cons_of_mem _ hy)
    rw [List.length_cons, List.sum_cons]
    push_cast
    rw [add_mul, one_mul]
    linarith

theorem sum_le_length_mul (l : List Int) (M : Int) (h : ∀ x ∈ l, x ≤ M) :
    l.sum ≤ (l.length : Int) * M := by
  induction l with
  | nil => simp
  | cons x xs ih =>
    have h1 : x ≤ M := h x (List.mem_cons_self x xs)
    have h2 := ih fun y hy => h y (List.mem_cons_of_mem _ hy)
    rw [List.length_cons, List.sum_cons]
    push_cast
    rw [add_mul, one_mul]
    linarith

/-! ### Closed-form aggregation of replicated lines (used to reach the
wrap-around of the i8 `count` without deep kernel evaluation) -/

theorem process_line_A (s : StationData) :
    process_line [("A", s)] "A;0.0" = [("A", s.update 0)] := by
  have hp : split_once ';' ("A;0.0".data) = ("A".data, "0.0".data) := by decide
  simp only [process_line, hp]
  have hparse : parse_temperature ("0.0".data) = 0 := by decide
  rw [hparse]
  simp [entryUpsert]

theorem foldl_process_line_repA (n : Nat) :
    ∀ c : Int, -128 ≤ c → c ≤ 127 →
      List.foldl process_line [("A", ⟨0, 0, 0, c⟩)] (List.replicate n "A;0.0")
        = [("A", ⟨0, 0, 0, wrap8 (c + n)⟩)] := by
  induction n with
  | zero =>
    intro c h1 h2
    simp [wrap8_eq_self h1 h2]
  | succ n ih =>
    intro c h1 h2
    rw [List.replicate_succ, List.foldl_cons, process_line_A]
    have hupd : StationData.update ⟨0, 0, 0, c⟩ 0 = ⟨0, 0, 0, wrap8 (c + 1)⟩ := by
      simp [StationData.update]
      unfold wrap8; omega
    rw [hupd, ih (wrap8 (c + 1)) (wrap8_lb _) (wrap8_ub _), wrap8_wrap8_left]
    have harg : c + 1 + (n : Int) = c + ((n : Nat) + 1 : Nat) := by push_cast; omega
    rw [harg]

theorem aggLines_replicate_A (n : Nat) :
    aggLines (List.replicate (n + 1) "A;0.0") = [("A", ⟨0, 0, 0, wrap8 (1 + n)⟩)] := by
  rw [show aggLines (List.replicate (n + 1) "A;0.0")
      = List.foldl process_line [] (List.replicate (n + 1) "A;0.0") from rfl,
    List.replicate_succ, List.foldl_cons]
  have h0 : process_line [] "A;0.0" = [("A", ⟨0, 0, 0, 1⟩)] := by decide
  rw [h0, foldl_process_line_repA n 1 (by omega) (by omega)]

theorem foldl_digitStep_nodigits (bytes : List Char)
    (h : ∀ c ∈ bytes, isAsciiDigit c = false) :
    ∀ t : Int, List.foldl digitStep t bytes = t := by
  induction bytes with
  | nil => intro t; rfl
  | cons c rest ih =>
    intro t
    have hc := h c (List.mem_cons_self c rest)
    rw [List.foldl_cons, show digitStep t c = t by simp [digitStep, hc]]
    exact ih (fun x hx => h x (List.mem_cons_of_mem _ hx)) t

/-! ### The claims -/

/-- C1: the spec's scenario expects the three-line input
`Hamburg;12.0\nHamburg;14.0\nBerlin;5.0` to produce
`\x7bBerlin=5.0/5.0/5.0, Hamburg=12.0/13.0/14.0\x7d\n`.  The program's 8-bit
accumulator wraps `14.0` to `-116` tenths, so the pipeline actually produces
`\x7bBerlin=5.0/5.0/5.0, Hamburg=-11.6/0.2/12.0\x7d\n` — evidence for the
code_bug verdict. -/
theorem claim_C1_scenario_output :
    runPipeline "Hamburg;12.0\nHamburg;14.0\nBerlin;5.0"
      = "\x7bBerlin=5.0/5.0/5.0, Hamburg=-11.6/0.2/12.0\x7d\n"
    ∧ runPipeline "Hamburg;12.0\nHamburg;14.0\nBerlin;5.0"
      ≠ "\x7bBerlin=5.0/5.0/5.0, Hamburg=12.0/13.0/14.0\x7d\n"
    ∧ parse_temperature ("14.0".data) = -116 := by
  refine ⟨by decide, by decide, by decide⟩

/-- C2: the claim says a value token with no digit bytes is treated as an
error or the record is skipped.  In the code, `parse_temperature` returns 0
for every digitless token, and `process_line` silently folds that zero
reading into the key's statistics (here the delimiterless line `Oslo`
becomes key `Oslo` with the empty token, inserted with
min = max = sum = 0, count = 1) — evidence for the code_bug verdict. -/
theorem claim_C2_digitless_silent_zero :
    (∀ bytes : List Char, (∀ c ∈ bytes, isAsciiDigit c = false) →
        parse_temperature bytes = 0)
    ∧ process_line [] "Oslo" = [("Oslo", ⟨0, 0, 0, 1⟩)] := by
  constructor
  · intro bytes h
    have ht := foldl_parseStep_temp bytes ⟨0, false, false⟩
    rw [show (⟨0, false, false⟩ : ParseState).temp = 0 from rfl,
      foldl_digitStep_nodigits bytes h 0] at ht
    cases hneg : (List.foldl parseStep ⟨0, false, false⟩ bytes).negative
    · simp only [parse_temperature, hneg, Bool.false_eq_true, if_false]
      exact ht
    · simp only [parse_temperature, hneg, if_true]
      rw [ht]
      decide
  · decide

theorem claim_C2_witness :
    (∀ c ∈ (['x'] : List Char), isAsciiDigit c = false)
    ∧ parse_temperature ['x'] = 0 :=
  ⟨by decide, claim_C2_digitless_silent_zero.1 ['x'] (by decide)⟩

/-- C3: with i8 arithmetic modelled as wrap-around mod 2^8, every
well-formed two-integer-digit token whose integer part is at least 13
parses to something other than its true value in tenths; in particular
`-99.9` parses to 25 (not -999) and `13.0` parses to -126 (not 130). -/
theorem claim_C3_accumulator_overflow :
    (∀ (neg : Bool) (d1 d2 d3 : Nat), d1 ≤ 9 → d2 ≤ 9 → d3 ≤ 9 →
        13 ≤ d1 * 10 + d2 →
        parse_temperature (token2 neg d1 d2 d3)
          ≠ (if neg then -(((d1 * 10 + d2) * 10 + d3 : Nat) : Int)
             else (((d1 * 10 + d2) * 10 + d3 : Nat) : Int)))
    ∧ parse_temperature ("-99.9".data) = 25
    ∧ parse_temperature ("13.0".data) = -126 := by
  refine ⟨?_, by decide, by decide⟩
  intro neg d1 d2 d3 h1 h2 h3 h13 heq
  have hlb := parse_temperature_lb (token2 neg d1 d2 d3)
  have hub := parse_temperature_ub (token2 neg d1 d2 d3)
  have hm : (130 : Int) ≤ (((d1 * 10 + d2) * 10 + d3 : Nat) : Int) := by
    push_cast; omega
  cases neg
  · simp only [Bool.false_eq_true, if_false] at heq
    omega
  · simp only [if_true] at heq
    omega

theorem claim_C3_witness :
    ((9 : Nat) ≤ 9 ∧ (13 : Nat) ≤ 9 * 10 + 9)
    ∧ parse_temperature (token2 true 9 9 9)
        ≠ -(((9 * 10 + 9) * 10 + 9 : Nat) : Int) := by
  refine ⟨⟨le_refl 9, by norm_num⟩, ?_⟩
  have h := claim_C3_accumulator_overflow.1 true 9 9 9
    (by norm_num) (by norm_num) (by norm_num) (by norm_num)
  simpa using h

/-- C4: every well-formed value token (optional `-`, one or two integer
digits, `.`, one fractional digit) whose scaled value in tenths lies in the
accumulator's representable range `[-128, 127]` parses to exactly ten times
the decimal value written, with the sign taken from the leading `-`;
concretely `-3.5` parses to -35 and `12.0` to 120. -/
theorem claim_C4_wellformed_tokens_parse_exactly :
    (∀ (neg : Bool) (d1 d3 : Nat) (v : Int), d1 ≤ 9 → d3 ≤ 9 →
        v = (if neg then -((d1 * 10 + d3 : Nat) : Int)
             else ((d1 * 10 + d3 : Nat) : Int)) →
        -128 ≤ v → v ≤ 127 →
        parse_temperature (token1 neg d1 d3) = v)
    ∧ (∀ (neg : Bool) (d1 d2 d3 : Nat) (v : Int), d1 ≤ 9 → d2 ≤ 9 → d3 ≤ 9 →
        v = (if neg then -(((d1 * 10 + d2) * 10 + d3 : Nat) : Int)
             else (((d1 * 10 + d2) * 10 + d3 : Nat) : Int)) →
        -128 ≤ v → v ≤ 127 →
        parse_temperature (token2 neg d1 d2 d3) = v)
    ∧ parse_temperature ("-3.5".data) = -35
    ∧ parse_temperature ("12.0".data) = 120 := by
  refine ⟨?_, ?_, by decide, by decide⟩
  · intro neg d1 d3 v h1 h3 hv hlo hhi
    rw [parse_token1 neg h1 h3]
    subst hv
    cases neg
    · simp only [Bool.false_eq_true, if_false] at hlo hhi ⊢
      unfold wrap8
      push_cast at hlo hhi ⊢
      omega
    · simp only [if_true] at hlo hhi ⊢
      unfold wrap8
      push_cast at hlo hhi ⊢
      omega
  · intro neg d1 d2 d3 v h1 h2 h3 hv hlo hhi
    rw [parse_token2 neg h1 h2 h3]
    subst hv
    cases neg
    · simp only [Bool.false_eq_true, if_false] at hlo hhi ⊢
      unfold wrap8
      push_cast at hlo hhi ⊢
      omega
    · simp only [if_true] at hlo hhi ⊢
      unfold wrap8
      push_cast at hlo hhi ⊢
      omega

theorem claim_C4_witness :
    ((3 : Nat) ≤ 9 ∧ (5 : Nat) ≤ 9
      ∧ (-35 : Int) = -((3 * 10 + 5 : Nat) : Int)
      ∧ -128 ≤ (-35 : Int) ∧ (-35 : Int) ≤ 127)
    ∧ parse_temperature (token1 true 3 5) = -35 := by
  refine ⟨⟨by norm_num, by norm_num, by norm_num, by norm_num, by norm_num⟩, ?_⟩
  have h := claim_C4_wellformed_tokens_parse_exactly.1 true 3 5 (-35)
    (by norm_num) (by norm_num) (by norm_num) (by norm_num) (by norm_num)
  exact h

/-- C5: the per-key merge is associative and commutative at the stats
level; lifted to whole tables (a key present in only one table carried over
unchanged) it is associative and commutative up to map equality, the empty
table is its identity, and any tree reduction of partition tables agrees
with the left-to-right fold. -/
theorem claim_C5_merge_monoid :
    (∀ a b c : StationData, (a.aggregate b).aggregate c = a.aggregate (b.aggregate c))
    ∧ (∀ a b : StationData, a.aggregate b = b.aggregate a)
    ∧ (∀ t1 t2 t3 : Table, KeysNodup t2 → KeysNodup t3 →
        TableEquiv (mergeTables (mergeTables t1 t2) t3)
          (mergeTables t1 (mergeTables t2 t3)))
    ∧ (∀ t1 t2 : Table, KeysNodup t1 → KeysNodup t2 →
        TableEquiv (mergeTables t1 t2) (mergeTables t2 t1))
    ∧ (∀ t : Table, KeysNodup t → TableEquiv (mergeTables [] t) t)
    ∧ (∀ t : Table, mergeTables t [] = t)
    ∧ (∀ tr : TableTree, tr.LeavesNodup →
        TableEquiv tr.reduceT (List.foldl mergeTables [] tr.leaves)) := by
  refine ⟨aggregate_assoc, aggregate_comm, ?_, ?_, ?_, fun t => rfl, ?_⟩
  · intro t1 t2 t3 h2 h3 k
    have e1 := tlookup_mergeTables h3 (mergeTables t1 t2) k
    have e2 := tlookup_mergeTables h2 t1 k
    have e3 := tlookup_mergeTables (keysNodup_mergeTables t3 h2) t1 k
    have e4 := tlookup_mergeTables h3 t2 k
    rw [e1, e2, e3, e4]
    exact combineOpt_assoc _ _ _
  · intro t1 t2 h1 h2 k
    rw [tlookup_mergeTables h2 t1 k, tlookup_mergeTables h1 t2 k]
    exact combineOpt_comm _ _
  · intro t h k
    rw [tlookup_mergeTables h [] k,
      show tlookup k ([] : Table) = none from rfl, combineOpt_none_left]
  · intro tr h k
    rw [tlookup_reduceT tr h k, tlookup_foldl_mergeTables tr.leaves h [] k]
    rfl

theorem claim_C5_witness :
    KeysNodup [("A", (⟨1, 2, 3, 1⟩ : StationData))]
    ∧ KeysNodup [("B", (⟨0, 5, 5, 2⟩ : StationData))]
    ∧ TableEquiv
        (mergeTables [("A", (⟨1, 2, 3, 1⟩ : StationData))]
          [("B", (⟨0, 5, 5, 2⟩ : StationData))])
        (mergeTables [("B", (⟨0, 5, 5, 2⟩ : StationData))]
          [("A", (⟨1, 2, 3, 1⟩ : StationData))]) :=
  ⟨by decide, by decide,
    claim_C5_merge_monoid.2.2.2.1 _ _ (by decide) (by decide)⟩

/-- C6: aggregating the two halves of any record-aligned split independently
and merging the resulting tables equals single-pass aggregation of the whole
line sequence; more generally, folding the merge over any list of
record-aligned partitions reproduces the single-pass table. -/
theorem claim_C6_partition_invariance :
    (∀ l1 l2 : List String,
        TableEquiv (aggLines (l1 ++ l2)) (mergeTables (aggLines l1) (aggLines l2)))
    ∧ (∀ parts : List (List String),
        TableEquiv (aggLines parts.flatten)
          (List.foldl (fun acc p => mergeTables acc (aggLines p)) [] parts)) := by
  constructor
  · intro l1 l2 k
    rw [tlookup_aggLines, readingsOf_append,
      statsFold_append _ _ (readingsOf_range k l2),
      tlookup_mergeTables (keysNodup_aggLines l2) _ k,
      tlookup_aggLines, tlookup_aggLines]
  · intro parts k
    rw [tlookup_aggLines, statsFold_join]
    have hfold : List.foldl (fun acc p => mergeTables acc (aggLines p)) ([] : Table) parts
        = List.foldl mergeTables ([] : Table) (parts.map aggLines) :=
      (List.foldl_map _ _ _ _).symm
    rw [hfold,
      tlookup_foldl_mergeTables (parts.map aggLines)
        (by
          intro t ht
          obtain ⟨p, _, rfl⟩ := List.mem_map.mp ht
          exact keysNodup_aggLines p)
        [] k,
      show tlookup k ([] : Table) = none from rfl, List.map_map]
    congr 1
    apply List.map_congr_left
    intro p _
    exact (tlookup_aggLines p k).symm

/-- C7 (amended): the unamended invariant fails because all four stats
fields are i8 — see the counterexample where 128 records wrap `count` to
-128.  Provided the key has at most 127 records and the true sum of its
parsed readings lies in `[-128, 127]`, every key of the final table
satisfies `count ≥ 1` and `min ≤ sum / count ≤ max` (the mean computed at
formatting time). -/
theorem claim_C7_key_invariants :
    ∀ (lines : List String) (k : String) (s : StationData),
      tlookup k (aggLines lines) = some s →
      (readingsOf k lines).length ≤ 127 →
      -128 ≤ (readingsOf k lines).sum → (readingsOf k lines).sum ≤ 127 →
      1 ≤ s.count
      ∧ (s.min_temp : ℚ) ≤ (s.total_temp : ℚ) / (s.count : ℚ)
      ∧ (s.total_temp : ℚ) / (s.count : ℚ) ≤ (s.max_temp : ℚ) := by
  intro lines k s hlook hlen hsl hsu
  rw [tlookup_aggLines] at hlook
  have hrange := readingsOf_range k lines
  cases hrs : readingsOf k lines with
  | nil => rw [hrs] at hlook; exact absurd hlook (by simp [statsFold])
  | cons r rest =>
    rw [hrs] at hlook hrange hlen hsl hsu
    have hr := hrange r (List.mem_cons_self r rest)
    have hfresh : StationData.new.update r = ⟨r, r, r, 1⟩ := new_update hr.1 hr.2
    have hs : s = List.foldl StationData.update ⟨r, r, r, 1⟩ rest := by
      have e : statsFold (r :: rest)
          = some (List.foldl StationData.update (StationData.new.update r) rest) := rfl
      rw [e, hfresh] at hlook
      exact (Option.some_inj.mp hlook).symm
    have hlen' : (1 : Int) + rest.length ≤ 127 := by
      rw [List.length_cons] at hlen
      omega
    have hct := foldl_update_count_total rest ⟨r, r, r, 1⟩
      (by norm_num) (by exact hlen') hr.1 hr.2
    have hmm := foldl_update_minmax rest ⟨r, r, r, 1⟩
    have hcount : s.count = 1 + (rest.length : Int) := by rw [hs]; exact hct.1
    have hsum : (r :: rest).sum = r + rest.sum := List.sum_cons
    have htotal : s.total_temp = r + rest.sum := by
      rw [hs, hct.2,
        show (⟨r, r, r, 1⟩ : StationData).total_temp = r from rfl,
        wrap8_eq_self (by omega) (by omega)]
    have hminall : ∀ x ∈ r :: rest, s.min_temp ≤ x := by
      intro x hx
      rcases List.mem_cons.mp hx with hx | hx
      · subst hx
        rw [hs]
        exact hmm.1
      · rw [hs]
        exact (hmm.2.2 x hx).1
    have hmaxall : ∀ x ∈ r :: rest, x ≤ s.max_temp := by
      intro x hx
      rcases List.mem_cons.mp hx with hx | hx
      · subst hx
        rw [hs]
        exact hmm.2.1
      · rw [hs]
        exact (hmm.2.2 x hx).2
    have hlow : ((r :: rest).length : Int) * s.min_temp ≤ (r :: rest).sum :=
      length_mul_le_sum _ _ hminall
    have hhigh : (r :: rest).sum ≤ ((r :: rest).length : Int) * s.max_temp :=
      sum_le_length_mul _ _ hmaxall
    have hlencast : ((r :: rest).length : Int) = s.count := by
      rw [List.length_cons, hcount]
      push_cast
      omega
    have hcpos : (0 : ℚ) < (s.count : ℚ) := by
      have : (0 : Int) < s.count := by rw [hcount]; omega
      exact_mod_cast this
    have hc1 : (1 : Int) ≤ s.count := by rw [hcount]; omega
    refine ⟨hc1, ?_, ?_⟩
    · rw [le_div_iff₀ hcpos]
      have : s.count * s.min_temp ≤ s.total_temp := by
        rw [htotal, ← hsum, ← hlencast]
        exact hlow
      calc (s.min_temp : ℚ) * (s.count : ℚ)
          = ((s.count * s.min_temp : Int) : ℚ) := by push_cast; ring
        _ ≤ ((s.total_temp : Int) : ℚ) := by exact_mod_cast this
    · rw [div_le_iff₀ hcpos]
      have : s.total_temp ≤ s.count * s.max_temp := by
        rw [htotal, ← hsum, ← hlencast]
        exact hhigh
      calc (s.total_temp : ℚ)
          ≤ ((s.count * s.max_temp : Int) : ℚ) := by exact_mod_cast this
        _ = (s.max_temp : ℚ) * (s.count : ℚ) := by push_cast; ring

theorem claim_C7_witness :
    (tlookup "A" (aggLines ["A;1.0", "B;9.9", "A;3.0"])
      = some (⟨10, 30, 40, 2⟩ : StationData))
    ∧ ((readingsOf "A" ["A;1.0", "B;9.9", "A;3.0"]).length ≤ 127)
    ∧ (1 ≤ (⟨10, 30, 40, 2⟩ : StationData).count
        ∧ ((⟨10, 30, 40, 2⟩ : StationData).min_temp : ℚ)
            ≤ ((⟨10, 30, 40, 2⟩ : StationData).total_temp : ℚ)
              / ((⟨10, 30, 40, 2⟩ : StationData).count : ℚ)
        ∧ ((⟨10, 30, 40, 2⟩ : StationData).total_temp : ℚ)
              / ((⟨10, 30, 40, 2⟩ : StationData).count : ℚ)
            ≤ ((⟨10, 30, 40, 2⟩ : StationData).max_temp : ℚ)) :=
  ⟨by decide, by decide,
    claim_C7_key_invariants ["A;1.0", "B;9.9", "A;3.0"] "A" ⟨10, 30, 40, 2⟩
      (by decide) (by decide) (by decide) (by decide)⟩

/-- C7 (counterexample to the claim as stated): after 128 records for key
`A` the i8 `count` wraps to -128, so the final table contains an entry with
`count < 1`. -/
theorem claim_C7_counterexample :
    tlookup "A" (aggLines (List.replicate 128 "A;0.0"))
      = some (⟨0, 0, 0, -128⟩ : StationData)
    ∧ ¬ (1 : Int) ≤ -128 := by
  constructor
  · rw [show (128 : Nat) = 127 + 1 from rfl, aggLines_replicate_A 127]
    decide
  · decide

/-- C8: folding one record into a table behaves as specified: a fresh key
gets min = max = sum = reading and count = 1; an existing key's entry gets
min/max folded and the i8 accumulators `sum` and `count` incremented; every
other key's entry is untouched. -/
theorem claim_C8_fold_one_record :
    ∀ (acc : Table) (line : String) (k : String),
      tlookup k (process_line acc line)
        = if stationOf line = k then
            match tlookup (stationOf line) acc with
            | none => some ⟨readingOf line, readingOf line, readingOf line, 1⟩
            | some s => some ⟨min s.min_temp (readingOf line),
                max s.max_temp (readingOf line),
                wrap8 (s.total_temp + readingOf line), wrap8 (s.count + 1)⟩
          else tlookup k acc := by
  intro acc line k
  rw [tlookup_process_line]
  by_cases h : stationOf line = k
  · rw [if_pos h, if_pos h, h]
    have hfr : StationData.new.update (readingOf line)
        = ⟨readingOf line, readingOf line, readingOf line, 1⟩ :=
      new_update (parse_temperature_lb _) (parse_temperature_ub _)
    cases hl : tlookup k acc
    · rw [show combineOpt none (some (StationData.new.update (readingOf line)))
          = some (StationData.new.update (readingOf line)) from rfl, hfr]
    · rw [combineOpt_some_some, hfr]
      rfl
  · rw [if_neg h, if_neg h]

/-- C9 (amended): the unamended claim fails because a key whose i8 `count`
has wrapped to 0 is rendered with a nonfinite mean (`NaN` / `inf`), which
has no fractional digit — see the counterexample.  For every table with
pairwise-distinct keys in which no entry's `count` is 0, the formatter
produces `\x7b`, the `key=min/mean/max` entries joined with `", "` in
strictly ascending key order with no duplicates (a permutation of the
table's keys), each numeric field a fixed-point numeral with exactly one
fractional digit, then `\x7d` and a newline; the empty table yields exactly
`\x7b\x7d` plus a newline. -/
theorem claim_C9_formatter_shape :
    (∀ t : Table, KeysNodup t → (∀ p ∈ t, p.2.count ≠ 0) →
        formatOutput t
          = "\x7b" ++ entriesBody ((sortedPairs t).map fun q => q.1 ++ "=" ++ q.2)
            ++ "\x7d" ++ "\n"
        ∧ ((sortedPairs t).map Prod.fst).Pairwise (fun a b => a < b)
        ∧ ((sortedPairs t).map Prod.fst).Perm (t.map Prod.fst)
        ∧ (∀ q ∈ sortedPairs t, ∃ p ∈ t, q.1 = p.1
            ∧ q.2 = fmtTenths p.2.min_temp ++ "/" ++ meanStr p.2.total_temp p.2.count
                ++ "/" ++ fmtTenths p.2.max_temp)
        ∧ (∀ p ∈ t, isFixed1 (fmtTenths p.2.min_temp) = true
            ∧ isFixed1 (meanStr p.2.total_temp p.2.count) = true
            ∧ isFixed1 (fmtTenths p.2.max_temp) = true))
    ∧ formatOutput [] = "\x7b\x7d" ++ "\n" := by
  constructor
  · intro t hnd hcnt
    refine ⟨formatOutput_eq_body t, sortedPairs_keys_strict hnd,
      sortedPairs_keys_perm t, fun q hq => mem_sortedPairs hq, ?_⟩
    intro p hp
    exact ⟨isFixed1_fmtTenths _, isFixed1_meanStr _ _ (hcnt p hp), isFixed1_fmtTenths _⟩
  · rfl

theorem claim_C9_witness :
    KeysNodup [("B", (⟨10, 20, 30, 2⟩ : StationData)),
        ("A", (⟨-5, 5, 0, 1⟩ : StationData))]
    ∧ (∀ p ∈ [("B", (⟨10, 20, 30, 2⟩ : StationData)),
        ("A", (⟨-5, 5, 0, 1⟩ : StationData))], p.2.count ≠ 0)
    ∧ formatOutput [("B", (⟨10, 20, 30, 2⟩ : StationData)),
          ("A", (⟨-5, 5, 0, 1⟩ : StationData))]
        = "\x7b"
          ++ entriesBody ((sortedPairs [("B", (⟨10, 20, 30, 2⟩ : StationData)),
              ("A", (⟨-5, 5, 0, 1⟩ : StationData))]).map fun q => q.1 ++ "=" ++ q.2)
          ++ "\x7d" ++ "\n" :=
  ⟨by decide, by decide,
    (claim_C9_formatter_shape.1 _ (by decide) (by decide)).1⟩

/-- C9 (counterexample to the claim as stated): 256 records for one key
wrap the i8 `count` to 0, the f32 mean becomes `0.0 / 0.0 = NaN`, and the
formatter emits `A=0.0/NaN/0.0`, whose mean field is not a fixed-point
numeral with one fractional digit. -/
theorem claim_C9_counterexample :
    formatOutput (aggLines (List.replicate 256 "A;0.0")) = "\x7bA=0.0/NaN/0.0\x7d\n"
    ∧ isFixed1 "NaN" = false := by
  constructor
  · rw [show (256 : Nat) = 255 + 1 from rfl, aggLines_replicate_A 255]
    decide
  · decide

/-- C10: in `parse_temperature` the sign comes from a `-` byte anywhere in
the token and every byte other than `-`, `.` and the ASCII digits is
silently skipped: the result is the (wrapping) negation of the digit
accumulation exactly when the token contains a `-` (so `3-5` parses to the
same value -35 as `-3.5`), and inserting any non-digit, non-`-`, non-`.`
byte anywhere never changes the parsed value. -/
theorem claim_C10_sign_anywhere_and_skip :
    (∀ bytes : List Char,
        parse_temperature bytes
          = if '-' ∈ bytes then wrap8 (-(digitAccum bytes)) else digitAccum bytes)
    ∧ parse_temperature ("3-5".data) = -35
    ∧ parse_temperature ("-3.5".data) = -35
    ∧ (∀ (pre post : List Char) (b : Char),
        isAsciiDigit b = false → ¬ b = '-' → ¬ b = '.' →
        parse_temperature (pre ++ b :: post) = parse_temperature (pre ++ post)) := by
  refine ⟨?_, by decide, by decide, ?_⟩
  · intro bytes
    have ht := foldl_parseStep_temp bytes ⟨0, false, false⟩
    have hn := foldl_parseStep_negative bytes ⟨0, false, false⟩
    rw [show (⟨0, false, false⟩ : ParseState).negative = false from rfl,
      Bool.false_or] at hn
    have hmem : (bytes.any fun c => c == '-') = true ↔ '-' ∈ bytes := by
      rw [List.any_eq_true]
      constructor
      · rintro ⟨c, hc, he⟩
        rw [beq_iff_eq] at he
        rwa [← he]
      · intro hm
        exact ⟨'-', hm, by rw [beq_iff_eq]⟩
    by_cases hd : '-' ∈ bytes
    · rw [if_pos hd]
      have : (List.foldl parseStep ⟨0, false, false⟩ bytes).negative = true := by
        rw [hn]; exact hmem.mpr hd
      simp only [parse_temperature, this, if_true]
      rw [ht]
      rfl
    · rw [if_neg hd]
      have : (List.foldl parseStep ⟨0, false, false⟩ bytes).negative = false := by
        rw [hn]
        rcases hb : bytes.any fun c => c == '-' with _ | _
        · rfl
        · exact absurd (hmem.mp hb) hd
      simp only [parse_temperature, this, Bool.false_eq_true, if_false]
      rw [ht]
      rfl
  · intro pre post b hb h1 h2
    unfold parse_temperature
    rw [List.foldl_append, List.foldl_cons,
      parseStep_skip _ hb h1 h2, ← List.foldl_append]

theorem claim_C10_witness :
    (isAsciiDigit 'x' = false ∧ ¬ 'x' = '-' ∧ ¬ 'x' = '.')
    ∧ parse_temperature (['1'] ++ 'x' :: ['.', '5'])
        = parse_temperature (['1'] ++ ['.', '5']) :=
  ⟨⟨by decide, by decide, by decide⟩,
    claim_C10_sign_anywhere_and_skip.2.2.2 ['1'] ['.', '5'] 'x'
      (by decide) (by decide) (by decide)⟩

end OneBRC
